import Mathlib

/-!
Verification of the TypeScript Module Map Generator.

This file gives a shallow embedding of the map-assembly pipeline
(`createModuleMap` in `src/module-map.ts`), the path utilities
(`src/utils.ts`: `getTypescriptFiles`, `resolveImportPath`), and the
control flow of the oracle wrapper (`callOpenAI` in `src/openai-tools.ts`),
and proves or refutes the specified properties about them.

JavaScript objects used as string-keyed dictionaries are modelled as
association lists in key-insertion order: assigning to an existing key
updates the stored value in place (keeping the key's position), and
assigning to a fresh key appends it, which is exactly the enumeration
order `Object.keys` exposes.
-/

set_option autoImplicit false

namespace ModuleMapGen

/-! ## JavaScript object model -/

/-- `obj[k] = v` on a JS object: update in place if the key is present,
otherwise append the new key at the end. -/
def jsInsert {α : Type} : List (String × α) → String → α → List (String × α)
  | [], k, v => [(k, v)]
  | (k', v') :: rest, k, v =>
    if k' = k then (k', v) :: rest else (k', v') :: jsInsert rest k v

/-- Property read `obj[k]` on a JS object (`none` models `undefined`). -/
def jsGet {α : Type} : List (String × α) → String → Option α
  | [], _ => none
  | (k', v') :: rest, k => if k' = k then some v' else jsGet rest k

/-- `Object.keys(obj)`: keys in insertion order. -/
def jsKeys {α : Type} (o : List (String × α)) : List String :=
  o.map Prod.fst

/-! ## The `"->"` split, modelling JavaScript `String.prototype.split("->")`

`createModuleMap` encodes an edge fact as the object key
`` `${file}->${modulePath}` `` and decodes it with `pathPairs.split("->")`.
We model the split at the character-list level: scan left to right, cutting
at each leftmost, non-overlapping occurrence of the separator `-`, `>`. -/

/-- Split a character list on each occurrence of the two-character
separator `-`, `>`, leftmost-first and non-overlapping, exactly as the
JavaScript `split("->")` does. -/
def splitArrow : List Char → List (List Char)
  | [] => [[]]
  | [c] => [[c]]
  | c :: c' :: rest =>
    if c = '-' ∧ c' = '>' then
      [] :: splitArrow rest
    else
      match splitArrow (c' :: rest) with
      | [] => [[c]]
      | h :: t => (c :: h) :: t

/-- Does the character list contain the separator `-`, `>` as a contiguous
substring? -/
def hasArrow : List Char → Bool
  | [] => false
  | [_] => false
  | c :: c' :: rest =>
    if c = '-' ∧ c' = '>' then true else hasArrow (c' :: rest)

/-- `s.split("->")` on strings. -/
def jsSplitArrow (s : String) : List String :=
  (splitArrow s.data).map String.mk

/-- Does the string contain `"->"` as a substring? -/
def hasArrowStr (s : String) : Bool :=
  hasArrow s.data

/-- The key under which `createModuleMap` records the edge fact
(`source`, `target`): `` `${source}->${target}` ``. -/
def edgeKey (source target : String) : String :=
  source ++ "->" ++ target

/-! ## POSIX path model (`path.dirname`, `path.join`, `path.normalize`)

The source runs Node's `path` module on project-relative POSIX paths (the
enumerated file paths never carry a leading `/`, trailing separators or
repeated separators); the model below implements Node's `path.posix`
semantics for those shapes. -/

/-- Split a character list on the `/` separator. -/
def splitSlash (l : List Char) : List (List Char) :=
  l.foldr
    (fun c acc =>
      if c = '/' then [] :: acc
      else
        match acc with
        | [] => [[c]]
        | h :: t => (c :: h) :: t)
    [[]]

/-- The segment walk inside Node `path.posix.normalize`: drop empty and `.`
segments, let `..` cancel a preceding real segment, keep leading `..`
segments of a relative path, drop them at the root of an absolute path. -/
def normalizeSegs (abs : Bool) (segs : List String) : List String :=
  segs.foldl
    (fun acc s =>
      if s = "" ∨ s = "." then acc
      else if s = ".." then
        match acc.getLast? with
        | some t => if t = ".." then acc ++ [".."] else acc.dropLast
        | none => if abs then [] else [".."]
      else acc ++ [s])
    []

/-- Node `path.posix.normalize`. -/
def posixNormalize (p : String) : String :=
  let abs : Bool :=
    match p.data with
    | '/' :: _ => true
    | _ => false
  let segs := normalizeSegs abs ((splitSlash p.data).map String.mk)
  let body := String.intercalate "/" segs
  if abs then (if body = "" then "/" else "/" ++ body)
  else (if body = "" then "." else body)

/-- Node `path.posix.join` on two parts: concatenate the non-empty parts
with `/` and normalize; the join of two empty parts is `"."`. -/
def posixJoin (a b : String) : String :=
  let joined := if a = "" then b else if b = "" then a else a ++ "/" ++ b
  if joined = "" then "." else posixNormalize joined

/-- Node `path.posix.dirname` for relative canonical paths: everything up
to the last separator, or `"."` when there is none. -/
def posixDirname (p : String) : String :=
  match ((splitSlash p.data).map String.mk).dropLast with
  | [] => "."
  | segs => String.intercalate "/" segs

/-- JavaScript `s.startsWith(".")`. -/
def startsWithDot (s : String) : Bool :=
  match s.data with
  | '.' :: _ => true
  | _ => false

/-- JavaScript `s.endsWith(suffix)`. -/
def jsEndsWith (s suffix : String) : Bool :=
  List.isSuffixOf suffix.data s.data

/-! ## File enumeration (`getTypescriptFiles`, `src/utils.ts`)

The directory tree handed to `fs.readdirSync` is modelled as a list of
named entries, each a file or a directory with its own entries, in
directory order. -/

/-- A file-system entry as seen by the traversal. -/
inductive FsTree where
  | file (name : String)
  | dir (name : String) (entries : List FsTree)

/-- `path.relative(directory, path.join(dir, entry.name))` along the walk:
the names on the path from the root, joined with `/`. -/
def joinRel (pfx name : String) : String :=
  if pfx = "" then name else pfx ++ "/" ++ name

/-- The file filter of `getTypescriptFiles`: `.ts`/`.tsx` files that do not
end in `.d.ts`, `.test.ts` or `.config.ts`. -/
def isIncludedFile (name : String) : Bool :=
  (jsEndsWith name ".ts" || jsEndsWith name ".tsx") &&
  !jsEndsWith name ".d.ts" && !jsEndsWith name ".test.ts" && !jsEndsWith name ".config.ts"

/-- The directory filter of `getTypescriptFiles`: skip hidden directories
and `node_modules`. -/
def allowedDirName (name : String) : Bool :=
  !startsWithDot name && name ≠ "node_modules"

mutual

/-- One step of `traverseDirectory` inside `getTypescriptFiles`, for a
single directory entry: collect an included file's relative path, descend
into an allowed directory, skip everything else. -/
def traverseEntry (pfx : String) : FsTree → List String
  | FsTree.file name => if isIncludedFile name then [joinRel pfx name] else []
  | FsTree.dir name children =>
    if allowedDirName name then traverseList (joinRel pfx name) children else []

/-- `traverseDirectory` inside `getTypescriptFiles`: walk the directory
listing in order, accumulating what each entry contributes. -/
def traverseList (pfx : String) : List FsTree → List String
  | [] => []
  | e :: rest => traverseEntry pfx e ++ traverseList pfx rest

end

/-- `getTypescriptFiles(directory)`: all TypeScript files under the root,
as paths relative to the root, in traversal order. -/
def getTypescriptFiles (root : List FsTree) : List String :=
  traverseList "" root

/-! ## Import resolution (`resolveImportPath`, `src/utils.ts`)

`fs.existsSync` is modelled by the predicate `fsOnDisk` on paths. -/

/-- `resolveImportPath(importPath, importingFilePath, baseDirectory)`:
non-relative specifiers pass through unchanged; relative ones are resolved
against the importing file's directory and probed as-is, with `.ts`, with
`.tsx`, and as a directory index (`index.ts`, `index.tsx`); the first
candidate that exists on disk wins, and the fallback is the resolved path
with `.ts` appended. -/
def resolveImportPath (fsOnDisk : String → Bool)
    (importPath importingFilePath baseDirectory : String) : String :=
  if startsWithDot importPath = false then importPath
  else
    let importingDir := posixDirname importingFilePath
    let resolvedPath := posixNormalize (posixJoin importingDir importPath)
    let possiblePaths := [resolvedPath, resolvedPath ++ ".ts", resolvedPath ++ ".tsx",
      posixJoin resolvedPath "index.ts", posixJoin resolvedPath "index.tsx"]
    match possiblePaths.find? (fun p => fsOnDisk (posixJoin baseDirectory p)) with
    | some p => p
    | none => resolvedPath ++ ".ts"

/-! ## Data model (`src/types.ts`) and the map pipeline (`src/module-map.ts`)

The oracle collaborator — `callOpenAI` on the constructed prompt followed
by `JSON.parse` of its reply — is modelled as a function from the file
path to `Except`: `.error` models a rejected oracle call or an unparseable
reply, `.ok` the parsed `ReturnFormat` object. The parsed JSON object
`modules` is its ordered list of key/value pairs (keys distinct). -/

/-- The `ReturnFormat` interface of `src/module-map.ts`. -/
structure ReturnFormat where
  description : String
  modules : List (String × String)
  deriving DecidableEq, Repr

/-- The `Module` interface of `src/types.ts`. -/
structure Module where
  description : String
  calling : List (String × String)
  callers : List (String × String)
  deriving DecidableEq, Repr

/-- The `ModuleMap` interface of `src/types.ts`. -/
structure ModuleMap where
  modules : List (String × Module)
  deriving DecidableEq, Repr

/-- The per-file analysis loop of `createModuleMap`: for each file in
order, obtain the oracle's parsed reply, store its description under the
file, and record each reported module path `p` with reason `r` under the
key `` `${file}->${p}` `` in `callingReasons`. A failed oracle call aborts
the whole run with that failure. -/
def analyzeFiles (oracle : String → Except String ReturnFormat) :
    List String → List (String × String) → List (String × String) →
    Except String (List (String × String) × List (String × String))
  | [], moduleDescriptions, callingReasons => .ok (moduleDescriptions, callingReasons)
  | file :: rest, moduleDescriptions, callingReasons =>
    match oracle file with
    | .error e => .error e
    | .ok rf =>
      analyzeFiles oracle rest (jsInsert moduleDescriptions file rf.description)
        (rf.modules.foldl (fun acc m => jsInsert acc (edgeKey file m.1) m.2) callingReasons)

/-- The inner loop of the assembly phase of `createModuleMap`, for one
file: walk all `callingReasons` entries, split each key on `"->"` into
`module1` (first part) and `module2` (second part, `none` when absent),
and collect `calls[module2] = reason` when `module1 === file`, else
`callers[module1] = reason` when `module2 === file`. Keys recorded by the
analysis loop always contain `"->"`, so `module2` is never absent there;
JavaScript would coerce an absent `module2` to the property key
`"undefined"`. -/
def assembleStep (file : String)
    (acc : List (String × String) × List (String × String)) (kv : String × String) :
    List (String × String) × List (String × String) :=
  let parts := jsSplitArrow kv.1
  let module1 := parts.headD ""
  let module2 := parts[1]?
  if module1 = file then
    (jsInsert acc.1 (module2.getD "undefined") kv.2, acc.2)
  else if module2 = some file then
    (acc.1, jsInsert acc.2 module1 kv.2)
  else acc

/-- The fold of `assembleStep` over all recorded edge facts, producing the
`calling` and `callers` mappings of one file. -/
def assembleFile (callingReasons : List (String × String)) (file : String) :
    List (String × String) × List (String × String) :=
  callingReasons.foldl (assembleStep file) ([], [])

/-- The `ModuleEntry` written for one file by the assembly phase. The
analysis loop has stored a description for every enumerated file, so the
`getD ""` default (JavaScript `undefined`) is never read on a completed
run. -/
def mkModule (moduleDescriptions callingReasons : List (String × String))
    (file : String) : Module :=
  { description := (jsGet moduleDescriptions file).getD ""
    calling := (assembleFile callingReasons file).1
    callers := (assembleFile callingReasons file).2 }

/-- The assembly phase of `createModuleMap`: one entry per enumerated
file, in enumeration order. -/
def assemble (files : List String)
    (moduleDescriptions callingReasons : List (String × String)) : ModuleMap :=
  ⟨files.foldl
    (fun acc file => jsInsert acc file (mkModule moduleDescriptions callingReasons file))
    []⟩

/-- `createModuleMap(directory)`: enumerate the TypeScript files, run the
per-file analysis, then assemble the bidirectional map. The returned
promise rejects — `.error` here — as soon as one oracle call fails. -/
def createModuleMap (root : List FsTree)
    (oracle : String → Except String ReturnFormat) : Except String ModuleMap :=
  let files := getTypescriptFiles root
  match analyzeFiles oracle files [] [] with
  | .error e => .error e
  | .ok (descs, reasons) => .ok (assemble files descs reasons)

/-! ## The oracle wrapper (`callOpenAI`, `src/openai-tools.ts`)

The chat-completions endpoint is modelled as a deterministic function
`llm` from the converted message list and the `response_format` flag
(whether a JSON object reply was requested) to the assistant's reply. The
`OPENAI_API_KEY` guard and the JSON parsing of tool arguments happen
outside the control flow the claims are about and are absorbed into the
modelled collaborators. Because the source recurses on every reply that
carries tool calls, the model takes fuel; the claims quantify over it. -/

/-- Message roles (`src/types.ts`). -/
inductive Role where
  | system
  | user
  | assistant
  | tool
  deriving DecidableEq, Repr

/-- The `Message` interface (`src/types.ts`). -/
structure Message where
  role : Role
  content : String
  name : Option String := none
  deriving DecidableEq, Repr

/-- The `Conversation` interface (`src/types.ts`). -/
structure Conversation where
  messages : List Message
  deriving DecidableEq, Repr

/-- One tool call in an assistant reply. -/
structure ToolCall where
  name : String
  arguments : String
  deriving DecidableEq, Repr

/-- The assistant message returned by the model: its text content
(`content || ''`) and its tool calls. -/
structure AssistantReply where
  content : String
  toolCalls : List ToolCall
  deriving DecidableEq, Repr

/-- The `OpenAITool` interface (`src/types.ts`): the JSON-schema
`parameters` field only feeds the request marshalling and is omitted;
`execute` takes the raw arguments and returns the tool result. -/
structure OpenAITool where
  name : String
  description : String
  execute : String → String

/-- The `switch (msg.role)` conversion to the wire format: `tool` messages
become `user` messages wrapping the tool name and output, the other roles
pass through. -/
def convertMessage (m : Message) : Role × String :=
  match m.role with
  | .tool => (Role.user, "Tool " ++ m.name.getD "unknown" ++ " response: " ++ m.content)
  | r => (r, m.content)

/-- Truthiness of the optional `forceJSON` argument, deciding whether
`response_format: { type: "json_object" }` is sent. -/
def jsonFlag : Option Bool → Bool
  | some b => b
  | none => false

/-- The `toolMap`: a `Map` built with `set` in tool order (a later tool
with the same name overwrites), then `get` by name. -/
def toolLookup (tools : List OpenAITool) (n : String) : Option (String → String) :=
  jsGet (tools.foldl (fun m t => jsInsert m t.name t.execute) []) n

/-- The tool-call loop: execute each requested tool in order, appending
its output as a `tool` message; an unknown tool name throws. -/
def runToolCalls (tools : List OpenAITool) :
    List ToolCall → Conversation → Except String Conversation
  | [], conv => .ok conv
  | tc :: rest, conv =>
    match toolLookup tools tc.name with
    | none => .error ("Tool \"" ++ tc.name ++ "\" not found")
    | some exec =>
      runToolCalls tools rest
        ⟨conv.messages ++ [⟨Role.tool, exec tc.arguments, some tc.name⟩]⟩

/-- `callOpenAI(conversation, tools, forceJSON?)`: ask the model, append
its reply to the conversation; if the reply carries tool calls, run them
and recurse on the extended conversation — with the `forceJSON` argument
omitted — otherwise return the reply content and the updated
conversation. -/
def callOpenAI (llm : List (Role × String) → Bool → AssistantReply) (fuel : Nat)
    (conversation : Conversation) (tools : List OpenAITool) (forceJSON : Option Bool) :
    Except String (String × Conversation) :=
  match fuel with
  | 0 => .error "oracle recursion fuel exhausted"
  | Nat.succ fuel' =>
    let reply := llm (conversation.messages.map convertMessage) (jsonFlag forceJSON)
    let updatedConversation : Conversation :=
      ⟨conversation.messages ++ [⟨Role.assistant, reply.content, none⟩]⟩
    if reply.toolCalls.isEmpty then
      .ok (reply.content, updatedConversation)
    else
      match runToolCalls tools reply.toolCalls updatedConversation with
      | .error e => .error e
      | .ok conv2 => callOpenAI llm fuel' conv2 tools none

/-! ## A file-system model for `fs.existsSync`

`resolveImportPath` probes candidates with `fs.existsSync`, which is true
for any existing entry — directories included. For runs over a modelled
directory tree we therefore check whether the path names any entry of the
tree. -/

mutual

/-- Does the path (given as its `/`-separated segments) name this entry —
file or directory — or something below it? -/
def fsEntryHasPath : FsTree → List String → Bool
  | _, [] => false
  | FsTree.file n, s :: segs => segs.isEmpty && n == s
  | FsTree.dir n ch, s :: segs => n == s && (segs.isEmpty || fsForestHasPath ch segs)

/-- Does the path name an entry anywhere in the directory listing? -/
def fsForestHasPath : List FsTree → List String → Bool
  | [], _ => false
  | e :: rest, segs => fsEntryHasPath e segs || fsForestHasPath rest segs

end

/-- `fs.existsSync` over a modelled tree rooted at the base directory. -/
def fsExistsAt (root : List FsTree) (p : String) : Bool :=
  fsForestHasPath root ((splitSlash p.data).map String.mk)

/-! ## Specification-side description of the enumeration

The spec describes the enumerated file set as exactly the files whose
name passes the inclusion filter and that are reachable from the root
through directories that are neither hidden nor dependency directories,
at any nesting depth. `SpecFileAt pfx entries p` says that `p` is such a
path relative to the walk position `pfx`. -/

inductive SpecFileAt : String → List FsTree → String → Prop where
  | here (pfx name : String) (entries : List FsTree)
      (hmem : FsTree.file name ∈ entries) (hname : isIncludedFile name = true) :
      SpecFileAt pfx entries (joinRel pfx name)
  | under (pfx d : String) (children entries : List FsTree) (p : String)
      (hmem : FsTree.dir d children ∈ entries) (hdir : allowedDirName d = true)
      (hsub : SpecFileAt (joinRel pfx d) children p) :
      SpecFileAt pfx entries p

/-! ## Concrete fixtures used by the counterexamples and witnesses -/

/-- A one-file project. -/
def exTreeC1 : List FsTree := [FsTree.file "a.ts"]

/-- An oracle reply reporting a third-party module not in the enumerated
set. -/
def exOracleC1 : String → Except String ReturnFormat :=
  fun _ => Except.ok ⟨"main entry point", [("react", "renders the UI")]⟩

/-- The entry `createModuleMap` builds for `a.ts` under `exOracleC1`. -/
def exEntryC1 : Module := ⟨"main entry point", [("react", "renders the UI")], []⟩

/-- The map `createModuleMap` returns on `exTreeC1` with `exOracleC1`. -/
def exMapC1 : ModuleMap := ⟨[("a.ts", exEntryC1)]⟩

/-- A two-file project. -/
def exTreeC2 : List FsTree := [FsTree.file "a.ts", FsTree.file "b.ts"]

/-- An oracle reply reporting a module path relative to the file under
analysis (`./b`) instead of the project-relative `b.ts`. -/
def exOracleC2 : String → Except String ReturnFormat :=
  fun f =>
    if f = "a.ts" then Except.ok ⟨"entry", [("./b", "uses the helper")]⟩
    else Except.ok ⟨"helper", []⟩

/-- The disk contents for the two-file project, as seen by
`fs.existsSync` from the project root. -/
def exFsC2 : String → Bool :=
  fun p => p == "a.ts" || p == "b.ts"

/-- The entry `createModuleMap` builds for `a.ts` under `exOracleC2`. -/
def exEntryC2 : Module := ⟨"entry", [("./b", "uses the helper")], []⟩

/-- The map `createModuleMap` returns on `exTreeC2` with `exOracleC2`. -/
def exMapC2 : ModuleMap := ⟨[("a.ts", exEntryC2), ("b.ts", ⟨"helper", [], []⟩)]⟩

/-- A one-file project for the self-import scenario. -/
def exTreeC3 : List FsTree := [FsTree.file "a.ts"]

/-- An oracle reply reporting the analyzed file itself as an imported
module. -/
def exOracleC3 : String → Except String ReturnFormat :=
  fun _ => Except.ok ⟨"self-referential module", [("a.ts", "imports itself")]⟩

/-- The entry `createModuleMap` builds for `a.ts` under `exOracleC3`. -/
def exEntryC3 : Module := ⟨"self-referential module", [("a.ts", "imports itself")], []⟩

/-- The map `createModuleMap` returns on `exTreeC3` with `exOracleC3`. -/
def exMapC3 : ModuleMap := ⟨[("a.ts", exEntryC3)]⟩

/-- A two-file project with one ordinary cross-file edge. -/
def exTreeSym : List FsTree := [FsTree.file "a.ts", FsTree.file "b.ts"]

/-- An oracle reporting `a.ts → b.ts` with a project-relative path. -/
def exOracleSym : String → Except String ReturnFormat :=
  fun f =>
    if f = "a.ts" then Except.ok ⟨"entry", [("b.ts", "uses the helper")]⟩
    else Except.ok ⟨"helper", []⟩

/-- The entry built for `a.ts` under `exOracleSym`. -/
def exEntrySymA : Module := ⟨"entry", [("b.ts", "uses the helper")], []⟩

/-- The entry built for `b.ts` under `exOracleSym`. -/
def exEntrySymB : Module := ⟨"helper", [], [("a.ts", "uses the helper")]⟩

/-- The map `createModuleMap` returns on `exTreeSym` with `exOracleSym`. -/
def exMapSym : ModuleMap := ⟨[("a.ts", exEntrySymA), ("b.ts", exEntrySymB)]⟩

/-- A project whose directory listing is not in lexicographic order. -/
def exTreeC4 : List FsTree := [FsTree.file "b.ts", FsTree.file "a.ts"]

/-- An oracle reporting no imports. -/
def exOracleC4 : String → Except String ReturnFormat :=
  fun _ => Except.ok ⟨"a module", []⟩

/-- The map `createModuleMap` returns on `exTreeC4` with `exOracleC4`. -/
def exMapC4 : ModuleMap :=
  ⟨[("b.ts", ⟨"a module", [], []⟩), ("a.ts", ⟨"a module", [], []⟩)]⟩

/-- A project in which the specifier `./b` names a directory with an index
file. -/
def exRootC5 : List FsTree := [FsTree.dir "b" [FsTree.file "index.ts"], FsTree.file "a.ts"]

/-- The disk contents for the resolution example of the specification:
`src/utils/read.ts` exists. -/
def exFsC5 : String → Bool :=
  fun p => p == "src/utils/read.ts"

/-- A one-file project whose oracle is unreachable. -/
def exTreeC8 : List FsTree := [FsTree.file "a.ts"]

/-- An oracle whose call always fails. -/
def exOracleC8 : String → Except String ReturnFormat :=
  fun _ => Except.error "oracle unreachable"

/-- A model that first requests a tool call and then answers plainly. -/
def exLlmC9 : List (Role × String) → Bool → AssistantReply :=
  fun msgs _ =>
    if msgs.length ≤ 1 then ⟨"", [⟨"get_import_lines", "a.ts"⟩]⟩
    else ⟨"done", []⟩

/-- The single tool offered to the model. -/
def exToolsC9 : List OpenAITool :=
  [⟨"get_import_lines", "Get all import lines from a TypeScript file", fun _ => "import lines"⟩]

/-- The starting conversation for the tool-call scenario. -/
def exConvC9 : Conversation := ⟨[⟨Role.user, "analyze the file", none⟩]⟩

/-- The conversation after the assistant's tool-call reply and the tool
output have been appended. -/
def exConvC9b : Conversation :=
  ⟨[⟨Role.user, "analyze the file", none⟩, ⟨Role.assistant, "", none⟩,
    ⟨Role.tool, "import lines", some "get_import_lines"⟩]⟩

/-! ## A computable lexicographic order on paths

The specification asks for entries in lexicographically sorted order; we
express that order on the character codes of the path. -/

/-- Lexicographic comparison of character lists by character code. -/
def lexLeChars : List Char → List Char → Bool
  | [], _ => true
  | _ :: _, [] => false
  | c :: cs, d :: ds =>
    if c.toNat < d.toNat then true
    else if c.toNat = d.toNat then lexLeChars cs ds
    else false

/-- Lexicographic comparison of strings. -/
def lexLe (s t : String) : Bool :=
  lexLeChars s.data t.data

/-! ## Library lemmas about the object and split models -/

@[simp] theorem jsGet_nil {α : Type} (k : String) :
    jsGet ([] : List (String × α)) k = none := rfl

theorem jsGet_jsInsert_self {α : Type} (o : List (String × α)) (k : String) (v : α) :
    jsGet (jsInsert o k v) k = some v := by
  induction o with
  | nil => simp [jsInsert, jsGet]
  | cons p rest ih =>
    by_cases h : p.1 = k
    · simp [jsInsert, jsGet, h]
    · simp [jsInsert, jsGet, h, ih]

theorem jsGet_jsInsert_ne {α : Type} (o : List (String × α)) (k k' : String) (v : α)
    (h : k ≠ k') : jsGet (jsInsert o k v) k' = jsGet o k' := by
  induction o with
  | nil => simp [jsInsert, jsGet, h]
  | cons p rest ih =>
    by_cases hp : p.1 = k
    · subst hp
      simp [jsInsert, jsGet, h, ih]
    · simp [jsInsert, jsGet, hp, ih]

theorem mem_jsKeys_jsInsert {α : Type} (o : List (String × α)) (k k' : String) (v : α) :
    k' ∈ jsKeys (jsInsert o k v) ↔ k' = k ∨ k' ∈ jsKeys o := by
  induction o with
  | nil => simp [jsInsert, jsKeys]
  | cons p rest ih =>
    rcases p with ⟨pk, pv⟩
    simp only [jsInsert]
    by_cases hp : pk = k
    · rw [if_pos hp]
      subst hp
      simp only [jsKeys, List.map_cons, List.mem_cons]
      tauto
    · rw [if_neg hp]
      simp only [jsKeys, List.map_cons, List.mem_cons] at ih ⊢
      rw [ih]
      tauto

theorem jsKeys_jsInsert_notMem {α : Type} (o : List (String × α)) (k : String) (v : α)
    (h : k ∉ jsKeys o) : jsKeys (jsInsert o k v) = jsKeys o ++ [k] := by
  induction o with
  | nil => simp [jsInsert, jsKeys]
  | cons p rest ih =>
    simp only [jsKeys, List.map_cons, List.mem_cons] at h
    push_neg at h
    simp only [jsInsert, if_neg (Ne.symm h.1), jsKeys, List.map_cons, List.cons_append,
      List.cons.injEq, true_and]
    exact ih h.2

theorem length_pos_splitArrow (l : List Char) : 1 ≤ (splitArrow l).length := by
  match l with
  | [] => simp [splitArrow]
  | [c] => simp [splitArrow]
  | c :: c' :: rest =>
    rw [splitArrow.eq_3]
    split
    · simp
    · split
      · simp
      · simp

theorem splitArrow_ne_nil (l : List Char) : splitArrow l ≠ [] := by
  have := length_pos_splitArrow l
  intro h
  rw [h] at this
  simp at this

theorem splitArrow_of_not_hasArrow : ∀ l : List Char, hasArrow l = false → splitArrow l = [l]
  | [], _ => rfl
  | [c], _ => rfl
  | c :: c' :: rest, h => by
    rw [hasArrow.eq_3] at h
    rw [splitArrow.eq_3]
    split
    · rename_i hcc
      rw [if_pos hcc] at h
      exact absurd h (by simp)
    · rename_i hcc
      rw [if_neg hcc] at h
      rw [splitArrow_of_not_hasArrow (c' :: rest) h]

theorem splitArrow_append_arrow :
    ∀ a b : List Char, hasArrow a = false →
      splitArrow (a ++ '-' :: '>' :: b) = a :: splitArrow b
  | [], b, _ => by
    rw [List.nil_append, splitArrow.eq_3, if_pos ⟨rfl, rfl⟩]
  | [c], b, _ => by
    have hrec := splitArrow_append_arrow [] b rfl
    rw [List.nil_append] at hrec
    rw [List.singleton_append, splitArrow.eq_3]
    split
    · rename_i hcc
      exact absurd hcc.2 (by decide)
    · rw [hrec]
  | c :: c' :: a', b, h => by
    rw [hasArrow.eq_3] at h
    split at h
    · exact absurd h (by simp)
    · rename_i hcc
      have hrec := splitArrow_append_arrow (c' :: a') b h
      rw [List.cons_append] at hrec
      rw [List.cons_append, List.cons_append, splitArrow.eq_3, if_neg hcc, hrec]

theorem two_le_length_splitArrow_append_arrow :
    ∀ a b : List Char, 2 ≤ (splitArrow (a ++ '-' :: '>' :: b)).length
  | [], b => by
    rw [List.nil_append, splitArrow.eq_3, if_pos ⟨rfl, rfl⟩]
    have hlen := length_pos_splitArrow b
    simp only [List.length_cons]
    omega
  | [c], b => by
    have hrec := two_le_length_splitArrow_append_arrow [] b
    rw [List.nil_append] at hrec
    rw [List.singleton_append, splitArrow.eq_3]
    split
    · rename_i hcc
      exact absurd hcc.2 (by decide)
    · split
      · rename_i heq
        exact absurd heq (splitArrow_ne_nil _)
      · rename_i hd tl heq
        rw [heq] at hrec
        simp only [List.length_cons] at hrec ⊢
        omega
  | c :: c' :: a', b => by
    rw [List.cons_append, List.cons_append, splitArrow.eq_3]
    split
    · have hlen := length_pos_splitArrow (a' ++ '-' :: '>' :: b)
      simp only [List.length_cons]
      omega
    · have hrec := two_le_length_splitArrow_append_arrow (c' :: a') b
      rw [List.cons_append] at hrec
      split
      · rename_i heq
        exact absurd heq (splitArrow_ne_nil _)
      · rename_i hd tl heq
        rw [heq] at hrec
        simp only [List.length_cons] at hrec ⊢
        omega

theorem splitArrow_roundtrip (a b : List Char)
    (ha : hasArrow a = false) (hb : hasArrow b = false) :
    splitArrow (a ++ '-' :: '>' :: b) = [a, b] := by
  rw [splitArrow_append_arrow a b ha, splitArrow_of_not_hasArrow b hb]

theorem data_edgeKey (s t : String) :
    (edgeKey s t).data = s.data ++ '-' :: '>' :: t.data := by
  show ((s ++ "->") ++ t).data = _
  have h1 : ∀ u v : String, (u ++ v).data = u.data ++ v.data := fun u v => rfl
  rw [h1, h1, List.append_assoc]
  rfl

theorem jsSplitArrow_edgeKey (s t : String)
    (hs : hasArrowStr s = false) (ht : hasArrowStr t = false) :
    jsSplitArrow (edgeKey s t) = [s, t] := by
  unfold jsSplitArrow
  rw [data_edgeKey, splitArrow_roundtrip s.data t.data hs ht]
  rfl

theorem jsGet_isSome_iff_mem_jsKeys {α : Type} (o : List (String × α)) (k : String) :
    (jsGet o k).isSome = true ↔ k ∈ jsKeys o := by
  induction o with
  | nil => simp [jsKeys]
  | cons p rest ih =>
    rcases p with ⟨pk, pv⟩
    by_cases h : pk = k
    · subst h
      simp [jsGet, jsKeys]
    · simp only [jsGet, if_neg h, jsKeys, List.map_cons, List.mem_cons]
      rw [ih]
      simp [jsKeys, Ne.symm h]

theorem mem_jsKeys_foldl_jsInsert {α β : Type} (key : β → String) (val : β → α) :
    ∀ (l : List β) (acc : List (String × α)) (k : String),
      k ∈ jsKeys (l.foldl (fun a b => jsInsert a (key b) (val b)) acc) ↔
        k ∈ jsKeys acc ∨ ∃ b ∈ l, k = key b
  | [], acc, k => by simp
  | b :: rest, acc, k => by
    rw [List.foldl_cons, mem_jsKeys_foldl_jsInsert key val rest _ k, mem_jsKeys_jsInsert]
    simp only [List.mem_cons]
    constructor
    · rintro ((hkb | hacc) | ⟨b', hb', hk⟩)
      · exact Or.inr ⟨b, Or.inl rfl, hkb⟩
      · exact Or.inl hacc
      · exact Or.inr ⟨b', Or.inr hb', hk⟩
    · rintro (hacc | ⟨b', rfl | hb', hk⟩)
      · exact Or.inl (Or.inr hacc)
      · exact Or.inl (Or.inl hk)
      · exact Or.inr ⟨b', hb', hk⟩

/-! ## Lemmas about the analysis phase -/

theorem analyzeFiles_error_of_oracle_error (oracle : String → Except String ReturnFormat) :
    ∀ (files : List String) (descs reasons : List (String × String)) (f : String) (e : String),
      f ∈ files → oracle f = .error e →
      ∃ e', analyzeFiles oracle files descs reasons = .error e'
  | [], _, _, f, e, hf, _ => absurd hf (List.not_mem_nil f)
  | g :: rest, descs, reasons, f, e, hf, herr => by
    rw [analyzeFiles]
    cases ho : oracle g with
    | error e'' => exact ⟨e'', rfl⟩
    | ok rf =>
      rcases List.mem_cons.mp hf with hfg | hfr
      · subst hfg
        rw [ho] at herr
        exact absurd herr (by simp)
      · exact analyzeFiles_error_of_oracle_error oracle rest _ _ f e hfr herr

theorem jsKeys_analyzeFiles (oracle : String → Except String ReturnFormat) :
    ∀ (files : List String) (descs reasons d r : List (String × String)),
      analyzeFiles oracle files descs reasons = .ok (d, r) →
      ∀ k ∈ jsKeys r, k ∈ jsKeys reasons ∨
        ∃ f rf mp, f ∈ files ∧ oracle f = .ok rf ∧ mp ∈ rf.modules ∧ k = edgeKey f mp.1
  | [], descs, reasons, d, r, h, k, hk => by
    rw [analyzeFiles] at h
    simp only [Except.ok.injEq, Prod.mk.injEq] at h
    obtain ⟨h1, h2⟩ := h
    subst h2
    exact Or.inl hk
  | file :: rest, descs, reasons, d, r, h, k, hk => by
    rw [analyzeFiles] at h
    cases ho : oracle file with
    | error e =>
      rw [ho] at h
      exact absurd h (by simp)
    | ok rf =>
      rw [ho] at h
      have hrec := jsKeys_analyzeFiles oracle rest _ _ d r h k hk
      rcases hrec with hin | ⟨f, rf', mp, hf, ho', hmp, hkey⟩
      · rcases (mem_jsKeys_foldl_jsInsert (fun m => edgeKey file m.1) (fun m => m.2)
          rf.modules reasons k).mp hin with hin' | ⟨mp, hmp, hkey⟩
        · exact Or.inl hin'
        · exact Or.inr ⟨file, rf, mp, List.mem_cons_self file rest, ho, hmp, hkey⟩
      · exact Or.inr ⟨f, rf', mp, List.mem_cons_of_mem file hf, ho', hmp, hkey⟩

theorem createModuleMap_ok_elim (root : List FsTree)
    (oracle : String → Except String ReturnFormat) (m : ModuleMap)
    (h : createModuleMap root oracle = .ok m) :
    ∃ d r, analyzeFiles oracle (getTypescriptFiles root) [] [] = .ok (d, r) ∧
      m = assemble (getTypescriptFiles root) d r := by
  have h' : (match analyzeFiles oracle (getTypescriptFiles root) [] [] with
      | Except.error e => Except.error e
      | Except.ok (descs, reasons) =>
        Except.ok (assemble (getTypescriptFiles root) descs reasons)) = Except.ok m := h
  cases hfa : analyzeFiles oracle (getTypescriptFiles root) [] [] with
  | error e =>
    rw [hfa] at h'
    exact absurd h' (by simp)
  | ok dr =>
    rcases dr with ⟨d, r⟩
    rw [hfa] at h'
    simp only [Except.ok.injEq] at h'
    exact ⟨d, r, rfl, h'.symm⟩

/-! ## Lemmas about the assembly phase -/

theorem jsGet_assemble_foldl (d r : List (String × String)) :
    ∀ (files : List String) (acc : List (String × Module)) (A : String),
      jsGet (files.foldl (fun a file => jsInsert a file (mkModule d r file)) acc) A =
        if A ∈ files then some (mkModule d r A) else jsGet acc A
  | [], acc, A => by simp
  | f :: rest, acc, A => by
    rw [List.foldl_cons, jsGet_assemble_foldl d r rest _ A]
    by_cases hA : A ∈ rest
    · simp [hA, List.mem_cons]
    · by_cases hAf : A = f
      · subst hAf
        simp [hA, jsGet_jsInsert_self]
      · simp [hA, List.mem_cons, hAf, jsGet_jsInsert_ne _ _ _ _ (Ne.symm hAf)]

theorem jsGet_assemble (files : List String) (d r : List (String × String)) (A : String) :
    jsGet (assemble files d r).modules A =
      if A ∈ files then some (mkModule d r A) else none := by
  unfold assemble
  rw [jsGet_assemble_foldl]
  simp

theorem mem_jsKeys_assemble (files : List String) (d r : List (String × String)) (p : String) :
    p ∈ jsKeys (assemble files d r).modules ↔ p ∈ files := by
  rw [← jsGet_isSome_iff_mem_jsKeys, jsGet_assemble]
  by_cases hp : p ∈ files <;> simp [hp]

theorem jsKeys_assemble_foldl (d r : List (String × String)) :
    ∀ (files : List String) (acc : List (String × Module)),
      files.Nodup → (∀ f ∈ files, f ∉ jsKeys acc) →
      jsKeys (files.foldl (fun a file => jsInsert a file (mkModule d r file)) acc) =
        jsKeys acc ++ files
  | [], acc, _, _ => by simp
  | f :: rest, acc, hnd, hdis => by
    rw [List.foldl_cons]
    have hfacc : f ∉ jsKeys acc := hdis f (List.mem_cons_self f rest)
    have hnd' := List.nodup_cons.mp hnd
    have hdis' : ∀ g ∈ rest, g ∉ jsKeys (jsInsert acc f (mkModule d r f)) := by
      intro g hg hmem
      rcases (mem_jsKeys_jsInsert acc f g (mkModule d r f)).mp hmem with hgf | hgacc
      · exact hnd'.1 (hgf ▸ hg)
      · exact hdis g (List.mem_cons_of_mem f hg) hgacc
    rw [jsKeys_assemble_foldl d r rest _ hnd'.2 hdis',
      jsKeys_jsInsert_notMem acc f (mkModule d r f) hfacc]
    simp

theorem jsKeys_assemble_of_nodup (files : List String) (d r : List (String × String))
    (hnd : files.Nodup) : jsKeys (assemble files d r).modules = files := by
  unfold assemble
  rw [jsKeys_assemble_foldl d r files [] hnd (by intro f _; simp [jsKeys])]
  simp [jsKeys]

theorem exists_cons_cons_of_two_le_length {γ : Type} (l : List γ) (h : 2 ≤ l.length) :
    ∃ x y rest, l = x :: y :: rest := by
  match l with
  | [] => simp at h
  | [x] => simp at h
  | x :: y :: rest => exact ⟨x, y, rest, rfl⟩

theorem assembleStep_eq (file : String)
    (acc : List (String × String) × List (String × String)) (kv : String × String)
    (x y : String) (restp : List String) (hparts : jsSplitArrow kv.1 = x :: y :: restp) :
    assembleStep file acc kv =
      if x = file then (jsInsert acc.1 y kv.2, acc.2)
      else if y = file then (acc.1, jsInsert acc.2 x kv.2)
      else acc := by
  simp only [assembleStep]
  rw [hparts]
  have h1 : (x :: y :: restp).headD "" = x := rfl
  have h2 : (x :: y :: restp)[1]? = some y := by simp
  rw [h1, h2]
  have h3 : (some y).getD "undefined" = y := rfl
  rw [h3]
  by_cases hx : x = file
  · rw [if_pos hx, if_pos hx]
  · rw [if_neg hx, if_neg hx]
    by_cases hy : y = file
    · rw [if_pos (by rw [hy]), if_pos hy]
    · rw [if_neg (by simp [hy]), if_neg hy]

theorem assembleStep_symm (A B : String) (hAB : A ≠ B) (kv : String × String)
    (x y : String) (restp : List String) (hparts : jsSplitArrow kv.1 = x :: y :: restp)
    (accA accB : List (String × String) × List (String × String))
    (hinv : jsGet accA.1 B = jsGet accB.2 A) :
    jsGet (assembleStep A accA kv).1 B = jsGet (assembleStep B accB kv).2 A := by
  rw [assembleStep_eq A accA kv x y restp hparts, assembleStep_eq B accB kv x y restp hparts]
  by_cases hx : x = A
  · subst hx
    have hxB : x ≠ B := hAB
    by_cases hy : y = B
    · subst hy
      simp [hAB, jsGet_jsInsert_self]
    · simp only [eq_self_iff_true, if_true, if_neg hxB, if_neg hy]
      rw [jsGet_jsInsert_ne accA.1 y B kv.2 hy]
      exact hinv
  · rw [if_neg hx]
    by_cases hyA : y = A
    · rw [if_pos hyA]
      by_cases hxB : x = B
      · rw [if_pos hxB]
        dsimp only
        exact hinv
      · rw [if_neg hxB]
        by_cases hyB : y = B
        · exact absurd (hyA ▸ hyB) hAB
        · rw [if_neg hyB]
          dsimp only
          exact hinv
    · rw [if_neg hyA]
      by_cases hxB : x = B
      · rw [if_pos hxB]
        dsimp only
        exact hinv
      · rw [if_neg hxB]
        by_cases hyB : y = B
        · rw [if_pos hyB]
          dsimp only
          rw [jsGet_jsInsert_ne accB.2 x A kv.2 hx]
          exact hinv
        · rw [if_neg hyB]
          exact hinv

theorem foldl_assembleStep_symm (A B : String) (hAB : A ≠ B)
    (reasons : List (String × String)) :
    ∀ (accA accB : List (String × String) × List (String × String)),
      (∀ kv ∈ reasons, 2 ≤ (jsSplitArrow kv.1).length) →
      jsGet accA.1 B = jsGet accB.2 A →
      jsGet (reasons.foldl (assembleStep A) accA).1 B =
        jsGet (reasons.foldl (assembleStep B) accB).2 A := by
  induction reasons with
  | nil => intro accA accB _ hinv; exact hinv
  | cons kv rest ih =>
    intro accA accB hlen hinv
    obtain ⟨x, y, restp, hparts⟩ :=
      exists_cons_cons_of_two_le_length (jsSplitArrow kv.1)
        (hlen kv (List.mem_cons_self kv rest))
    rw [List.foldl_cons, List.foldl_cons]
    exact ih _ _ (fun kv' h => hlen kv' (List.mem_cons_of_mem kv h))
      (assembleStep_symm A B hAB kv x y restp hparts accA accB hinv)

theorem assembleFile_symm (reasons : List (String × String)) (A B : String) (hAB : A ≠ B)
    (hlen : ∀ kv ∈ reasons, 2 ≤ (jsSplitArrow kv.1).length) :
    jsGet (assembleFile reasons A).1 B = jsGet (assembleFile reasons B).2 A :=
  foldl_assembleStep_symm A B hAB reasons ([], []) ([], []) hlen rfl

theorem two_le_length_jsSplitArrow_edgeKey (f p : String) :
    2 ≤ (jsSplitArrow (edgeKey f p)).length := by
  unfold jsSplitArrow
  rw [data_edgeKey, List.length_map]
  exact two_le_length_splitArrow_append_arrow f.data p.data

/-! ## The enumeration walk returns exactly the spec-described files -/

theorem SpecFileAt_nil (pfx p : String) : ¬ SpecFileAt pfx [] p := by
  intro h
  cases h with
  | here _ name _ hmem hname => exact absurd hmem (List.not_mem_nil _)
  | under _ d children _ _ hmem hdir hsub => exact absurd hmem (List.not_mem_nil _)

theorem SpecFileAt_cons_of (pfx p : String) (e : FsTree) (rest : List FsTree)
    (h : SpecFileAt pfx rest p) : SpecFileAt pfx (e :: rest) p := by
  cases h with
  | here _ name _ hmem hname =>
    exact SpecFileAt.here pfx name (e :: rest) (List.mem_cons_of_mem e hmem) hname
  | under _ d children _ _ hmem hdir hsub =>
    exact SpecFileAt.under pfx d children (e :: rest) p (List.mem_cons_of_mem e hmem) hdir hsub

theorem mem_traverseList_iff :
    ∀ (pfx : String) (entries : List FsTree) (p : String),
      p ∈ traverseList pfx entries ↔ SpecFileAt pfx entries p
  | pfx, [], p => by
    rw [traverseList]
    constructor
    · intro h
      exact absurd h (List.not_mem_nil p)
    · intro h
      exact absurd h (SpecFileAt_nil pfx p)
  | pfx, FsTree.file name :: rest, p => by
    rw [traverseList, traverseEntry, List.mem_append]
    have hrec := mem_traverseList_iff pfx rest p
    constructor
    · rintro (hin | hin)
      · by_cases hinc : isIncludedFile name
        · rw [if_pos hinc] at hin
          simp only [List.mem_singleton] at hin
          subst hin
          exact SpecFileAt.here pfx name _ (List.mem_cons_self _ _) hinc
        · rw [if_neg hinc] at hin
          exact absurd hin (List.not_mem_nil p)
      · exact SpecFileAt_cons_of pfx p _ rest (hrec.mp hin)
    · intro h
      cases h with
      | here _ name' _ hmem hname' =>
        rcases List.mem_cons.mp hmem with heq | hmem'
        · injection heq with hn
          subst hn
          exact Or.inl (by rw [if_pos hname']; exact List.mem_singleton_self _)
        · exact Or.inr (hrec.mpr (SpecFileAt.here pfx name' rest hmem' hname'))
      | under _ d children _ _ hmem hdir hsub =>
        rcases List.mem_cons.mp hmem with heq | hmem'
        · exact absurd heq (by simp)
        · exact Or.inr (hrec.mpr (SpecFileAt.under pfx d children rest p hmem' hdir hsub))
  | pfx, FsTree.dir dname children :: rest, p => by
    rw [traverseList, traverseEntry, List.mem_append]
    have hrecR := mem_traverseList_iff pfx rest p
    have hrecC := mem_traverseList_iff (joinRel pfx dname) children p
    constructor
    · rintro (hin | hin)
      · by_cases hdir : allowedDirName dname
        · rw [if_pos hdir] at hin
          exact SpecFileAt.under pfx dname children _ p (List.mem_cons_self _ _) hdir
            (hrecC.mp hin)
        · rw [if_neg hdir] at hin
          exact absurd hin (List.not_mem_nil p)
      · exact SpecFileAt_cons_of pfx p _ rest (hrecR.mp hin)
    · intro h
      cases h with
      | here _ name' _ hmem hname' =>
        rcases List.mem_cons.mp hmem with heq | hmem'
        · exact absurd heq (by simp)
        · exact Or.inr (hrecR.mpr (SpecFileAt.here pfx name' rest hmem' hname'))
      | under _ d ch _ _ hmem hdir hsub =>
        rcases List.mem_cons.mp hmem with heq | hmem'
        · injection heq with h1 h2
          subst h1
          subst h2
          exact Or.inl (by rw [if_pos hdir]; exact hrecC.mpr hsub)
        · exact Or.inr (hrecR.mpr (SpecFileAt.under pfx d ch rest p hmem' hdir hsub))

/-! ## Claim C5 -/

/-- C5 (counterexample): the probe is `fs.existsSync`, not membership in
the enumerated file set. With `./b` naming a directory whose index file is
the enumerated `b/index.ts`, the as-is candidate `b` exists on disk (as a
directory) and wins, although the first candidate matching an enumerated
file is `b/index.ts`; so the claim that the first candidate matching an
existing *enumerated file* is returned is false. -/
theorem claim_C5_counterexample :
    resolveImportPath (fsExistsAt exRootC5) "./b" "a.ts" "" = "b" ∧
    ([posixNormalize (posixJoin (posixDirname "a.ts") "./b"),
      posixNormalize (posixJoin (posixDirname "a.ts") "./b") ++ ".ts",
      posixNormalize (posixJoin (posixDirname "a.ts") "./b") ++ ".tsx",
      posixJoin (posixNormalize (posixJoin (posixDirname "a.ts") "./b")) "index.ts",
      posixJoin (posixNormalize (posixJoin (posixDirname "a.ts") "./b")) "index.tsx"].find?
        (fun p => (getTypescriptFiles exRootC5).contains p) = some "b/index.ts") ∧
    "b" ∉ getTypescriptFiles exRootC5 := by
  refine ⟨by decide, by decide, by decide⟩

/-- C5 (amended): for a relative specifier (beginning with `.`),
`resolveImportPath` resolves it against the importing file's directory and
probes candidates in the fixed order — the path as-is, then `.ts`, then
`.tsx`, then `index.ts`, then `index.tsx` — and returns the first
candidate that exists on disk (`fs.existsSync`, which also accepts
directories and non-enumerated files). In particular, importer
`src/animals/cats.ts` importing `../utils/read` with `src/utils/read.ts`
existing resolves to `src/utils/read.ts`. -/
theorem claim_C5_amended (fsOnDisk : String → Bool)
    (importPath importingFilePath baseDirectory c : String)
    (hrel : startsWithDot importPath = true)
    (hfound :
      [posixNormalize (posixJoin (posixDirname importingFilePath) importPath),
        posixNormalize (posixJoin (posixDirname importingFilePath) importPath) ++ ".ts",
        posixNormalize (posixJoin (posixDirname importingFilePath) importPath) ++ ".tsx",
        posixJoin (posixNormalize (posixJoin (posixDirname importingFilePath) importPath))
          "index.ts",
        posixJoin (posixNormalize (posixJoin (posixDirname importingFilePath) importPath))
          "index.tsx"].find? (fun p => fsOnDisk (posixJoin baseDirectory p)) = some c) :
    resolveImportPath fsOnDisk importPath importingFilePath baseDirectory = c := by
  simp only [resolveImportPath, hrel]
  rw [if_neg (by simp), hfound]

/-- C5 (witness): the specification's own example, on a disk where
`src/utils/read.ts` exists. -/
theorem claim_C5_witness :
    startsWithDot "../utils/read" = true ∧
    ([posixNormalize (posixJoin (posixDirname "src/animals/cats.ts") "../utils/read"),
      posixNormalize (posixJoin (posixDirname "src/animals/cats.ts") "../utils/read") ++ ".ts",
      posixNormalize (posixJoin (posixDirname "src/animals/cats.ts") "../utils/read") ++ ".tsx",
      posixJoin (posixNormalize (posixJoin (posixDirname "src/animals/cats.ts") "../utils/read"))
        "index.ts",
      posixJoin (posixNormalize (posixJoin (posixDirname "src/animals/cats.ts") "../utils/read"))
        "index.tsx"].find? (fun p => exFsC5 (posixJoin "" p)) = some "src/utils/read.ts") ∧
    resolveImportPath exFsC5 "../utils/read" "src/animals/cats.ts" "" = "src/utils/read.ts" :=
  ⟨by decide, by decide,
    claim_C5_amended exFsC5 "../utils/read" "src/animals/cats.ts" "" "src/utils/read.ts"
      (by decide) (by decide)⟩

/-! ## Claim C6 -/

/-- C6: when no probed candidate exists for a relative specifier,
`resolveImportPath` deterministically returns the root-relative normalized
path with the primary extension `.ts` appended. -/
theorem claim_C6_fallback (fsOnDisk : String → Bool)
    (importPath importingFilePath baseDirectory : String)
    (hrel : startsWithDot importPath = true)
    (hnone : ∀ p ∈
      [posixNormalize (posixJoin (posixDirname importingFilePath) importPath),
        posixNormalize (posixJoin (posixDirname importingFilePath) importPath) ++ ".ts",
        posixNormalize (posixJoin (posixDirname importingFilePath) importPath) ++ ".tsx",
        posixJoin (posixNormalize (posixJoin (posixDirname importingFilePath) importPath))
          "index.ts",
        posixJoin (posixNormalize (posixJoin (posixDirname importingFilePath) importPath))
          "index.tsx"], fsOnDisk (posixJoin baseDirectory p) = false) :
    resolveImportPath fsOnDisk importPath importingFilePath baseDirectory =
      posixNormalize (posixJoin (posixDirname importingFilePath) importPath) ++ ".ts" := by
  simp only [resolveImportPath, hrel]
  rw [if_neg (by simp), List.find?_eq_none.mpr (fun p hp => by rw [hnone p hp]; simp)]

/-- C6 (witness): the repository's own test case — `./component` imported
from `src/file.ts` with nothing on disk resolves to `src/component.ts`. -/
theorem claim_C6_witness :
    startsWithDot "./component" = true ∧
    (∀ p ∈
      [posixNormalize (posixJoin (posixDirname "src/file.ts") "./component"),
        posixNormalize (posixJoin (posixDirname "src/file.ts") "./component") ++ ".ts",
        posixNormalize (posixJoin (posixDirname "src/file.ts") "./component") ++ ".tsx",
        posixJoin (posixNormalize (posixJoin (posixDirname "src/file.ts") "./component"))
          "index.ts",
        posixJoin (posixNormalize (posixJoin (posixDirname "src/file.ts") "./component"))
          "index.tsx"], (fun _ => false : String → Bool) (posixJoin "/test/dir" p) = false) ∧
    resolveImportPath (fun _ => false) "./component" "src/file.ts" "/test/dir" =
      "src/component.ts" :=
  ⟨by decide, fun p _ => rfl,
    (claim_C6_fallback (fun _ => false) "./component" "src/file.ts" "/test/dir" (by decide)
      (fun p _ => rfl)).trans (by decide)⟩

/-! ## Claim C7 -/

/-- C7 (counterexample): `a.test.tsx` is a test file in the sense of the
claim's `.test.<ext>` rule, yet `getTypescriptFiles` returns it — only the
`.ts`-suffixed variants `.d.ts`, `.test.ts`, `.config.ts` are excluded. -/
theorem claim_C7_counterexample :
    getTypescriptFiles [FsTree.file "a.test.tsx"] = ["a.test.tsx"] ∧
    jsEndsWith "a.test.tsx" ".test.tsx" = true := by
  refine ⟨by decide, by decide⟩

/-- C7 (amended): `getTypescriptFiles` returns exactly the files whose
name ends in `.ts` or `.tsx` but not in `.d.ts`, `.test.ts` or
`.config.ts` (the `.tsx` variants of those suffixes are not excluded) and
that are reachable only through directories that are neither hidden nor
`node_modules`, at any nesting depth. -/
theorem claim_C7_amended (root : List FsTree) (p : String) :
    p ∈ getTypescriptFiles root ↔ SpecFileAt "" root p :=
  mem_traverseList_iff "" root p

/-! ## Claim C8 -/

/-- C8: if the oracle call for some enumerated file fails — the oracle is
unreachable or its reply does not parse — then `createModuleMap` fails as
a whole: the promise rejects, and no map (hence no partial entry or
placeholder description) is produced. -/
theorem claim_C8_failure_propagates (root : List FsTree)
    (oracle : String → Except String ReturnFormat) (f e : String)
    (hf : f ∈ getTypescriptFiles root) (herr : oracle f = .error e) :
    ∃ e', createModuleMap root oracle = .error e' := by
  obtain ⟨e', he⟩ :=
    analyzeFiles_error_of_oracle_error oracle (getTypescriptFiles root) [] [] f e hf herr
  refine ⟨e', ?_⟩
  show (match analyzeFiles oracle (getTypescriptFiles root) [] [] with
      | Except.error e => Except.error e
      | Except.ok (descs, reasons) =>
        Except.ok (assemble (getTypescriptFiles root) descs reasons)) = Except.error e'
  rw [he]

/-- C8 (witness): a one-file project whose oracle is unreachable. -/
theorem claim_C8_witness :
    "a.ts" ∈ getTypescriptFiles exTreeC8 ∧
    exOracleC8 "a.ts" = Except.error "oracle unreachable" ∧
    ∃ e', createModuleMap exTreeC8 exOracleC8 = Except.error e' :=
  ⟨by decide, rfl,
    claim_C8_failure_propagates exTreeC8 exOracleC8 "a.ts" "oracle unreachable" (by decide) rfl⟩

/-! ## Claim C9 -/

/-- C9: when the assistant reply carries tool calls, `callOpenAI` runs the
tools and re-invokes itself on the extended conversation with the
`forceJSON` argument omitted — the follow-up call, and with it the final
answer accepted after tool use, is not forced to be a JSON object. -/
theorem claim_C9_followup_omits_forceJSON
    (llm : List (Role × String) → Bool → AssistantReply) (fuel : Nat)
    (conversation : Conversation) (tools : List OpenAITool) (forceJSON : Option Bool)
    (conv2 : Conversation)
    (hcalls : (llm (conversation.messages.map convertMessage)
        (jsonFlag forceJSON)).toolCalls.isEmpty = false)
    (hrun : runToolCalls tools
        (llm (conversation.messages.map convertMessage) (jsonFlag forceJSON)).toolCalls
        ⟨conversation.messages ++
          [⟨Role.assistant,
            (llm (conversation.messages.map convertMessage) (jsonFlag forceJSON)).content,
            none⟩]⟩ = .ok conv2) :
    callOpenAI llm (fuel + 1) conversation tools forceJSON =
      callOpenAI llm fuel conv2 tools none := by
  simp only [callOpenAI, hcalls, Bool.false_eq_true, if_false, hrun]

/-- C9 (witness): a model that first requests one tool call; the step with
`forceJSON = some true` equals the follow-up step with `forceJSON`
omitted. -/
theorem claim_C9_witness :
    (exLlmC9 (exConvC9.messages.map convertMessage) (jsonFlag (some true))).toolCalls.isEmpty
        = false ∧
    runToolCalls exToolsC9
        (exLlmC9 (exConvC9.messages.map convertMessage) (jsonFlag (some true))).toolCalls
        ⟨exConvC9.messages ++
          [⟨Role.assistant,
            (exLlmC9 (exConvC9.messages.map convertMessage) (jsonFlag (some true))).content,
            none⟩]⟩ = Except.ok exConvC9b ∧
    callOpenAI exLlmC9 1 exConvC9 exToolsC9 (some true) =
      callOpenAI exLlmC9 0 exConvC9b exToolsC9 none :=
  ⟨rfl, rfl,
    claim_C9_followup_omits_forceJSON exLlmC9 0 exConvC9 exToolsC9 (some true) exConvC9b rfl rfl⟩

/-! ## Claim C10 -/

/-- C10: `createModuleMap` encodes the edge fact (`source`, `target`) as
the single key `${source}->${target}` and decodes it by splitting on
`"->"`; when neither path contains `"->"`, the split returns exactly the
pair, so the decoded first and second components equal the encoded ones. -/
theorem claim_C10_roundtrip (source target : String)
    (hs : hasArrowStr source = false) (ht : hasArrowStr target = false) :
    jsSplitArrow (edgeKey source target) = [source, target] ∧
    (jsSplitArrow (edgeKey source target)).headD "" = source ∧
    (jsSplitArrow (edgeKey source target))[1]? = some target := by
  have h := jsSplitArrow_edgeKey source target hs ht
  refine ⟨h, ?_, ?_⟩ <;> rw [h] <;> simp

/-- C10 (witness): the round trip at two project-relative paths. -/
theorem claim_C10_witness :
    hasArrowStr "app/index.ts" = false ∧ hasArrowStr "app/log.ts" = false ∧
    (jsSplitArrow (edgeKey "app/index.ts" "app/log.ts") = ["app/index.ts", "app/log.ts"] ∧
      (jsSplitArrow (edgeKey "app/index.ts" "app/log.ts")).headD "" = "app/index.ts" ∧
      (jsSplitArrow (edgeKey "app/index.ts" "app/log.ts"))[1]? = some "app/log.ts") :=
  ⟨by decide, by decide, claim_C10_roundtrip "app/index.ts" "app/log.ts" (by decide) (by decide)⟩

/-! ## Claim C1 -/

/-- C1 (counterexample): the oracle reports the non-enumerated target
`react`, and the edge fact is not dropped — it remains a key of the
source's `calling` mapping. -/
theorem claim_C1_counterexample :
    createModuleMap exTreeC1 exOracleC1 = Except.ok exMapC1 ∧
    jsGet exMapC1.modules "a.ts" = some exEntryC1 ∧
    jsGet exEntryC1.calling "react" = some "renders the UI" ∧
    "react" ∉ getTypescriptFiles exTreeC1 :=
  ⟨rfl, rfl, rfl, by decide⟩

/-- C1 (amended): edge facts whose target is not enumerated are *not*
dropped from the source's `calling` mapping; what does hold is that no
`ModuleEntry` is created for a non-enumerated path — the keys of the map
produced by `createModuleMap` are exactly the enumerated files. -/
theorem claim_C1_amended (root : List FsTree)
    (oracle : String → Except String ReturnFormat) (m : ModuleMap) (p : String)
    (hok : createModuleMap root oracle = .ok m) :
    p ∈ jsKeys m.modules ↔ p ∈ getTypescriptFiles root := by
  obtain ⟨d, r, _, hm⟩ := createModuleMap_ok_elim root oracle m hok
  rw [hm]
  exact mem_jsKeys_assemble (getTypescriptFiles root) d r p

/-- C1 (witness): the amended claim at the concrete one-file run. -/
theorem claim_C1_witness :
    createModuleMap exTreeC1 exOracleC1 = Except.ok exMapC1 ∧
    ("a.ts" ∈ jsKeys exMapC1.modules ↔ "a.ts" ∈ getTypescriptFiles exTreeC1) :=
  ⟨rfl, claim_C1_amended exTreeC1 exOracleC1 exMapC1 "a.ts" rfl⟩

/-! ## Claim C2 -/

/-- C2 (counterexample): the oracle reports the file-relative path `./b`;
`createModuleMap` records it verbatim as the edge-fact target — the
`calling` key is `./b`, not the normalized `b.ts` that `resolveImportPath`
(with the current file as importing context) would produce. -/
theorem claim_C2_counterexample :
    createModuleMap exTreeC2 exOracleC2 = Except.ok exMapC2 ∧
    jsGet exMapC2.modules "a.ts" = some exEntryC2 ∧
    jsGet exEntryC2.calling "./b" = some "uses the helper" ∧
    jsGet exEntryC2.calling "b.ts" = none ∧
    resolveImportPath exFsC2 "./b" "a.ts" "" = "b.ts" ∧
    ("./b" : String) ≠ "b.ts" :=
  ⟨rfl, rfl, rfl, rfl, by decide, by decide⟩

/-- C2 (amended): paths reported in the oracle's `modules` mapping are
recorded verbatim, without passing through the path normalizer: every key
of the accumulated `callingReasons` object of a successful analysis run is
`edgeKey f p` for some enumerated file `f` and some module path `p`
exactly as it appears in the oracle's reply for `f`. Normalization is
delegated to the oracle through the prompt. -/
theorem claim_C2_amended (oracle : String → Except String ReturnFormat)
    (files : List String) (d r : List (String × String))
    (hok : analyzeFiles oracle files [] [] = .ok (d, r)) (k : String) (hk : k ∈ jsKeys r) :
    ∃ f rf mp, f ∈ files ∧ oracle f = .ok rf ∧ mp ∈ rf.modules ∧ k = edgeKey f mp.1 := by
  rcases jsKeys_analyzeFiles oracle files [] [] d r hok k hk with h | h
  · exact absurd h (by simp [jsKeys])
  · exact h

/-- C2 (witness): the amended claim at the concrete two-file run. -/
theorem claim_C2_witness :
    analyzeFiles exOracleC2 ["a.ts", "b.ts"] [] [] =
      Except.ok ([("a.ts", "entry"), ("b.ts", "helper")],
        [("a.ts->./b", "uses the helper")]) ∧
    "a.ts->./b" ∈ jsKeys [("a.ts->./b", "uses the helper")] ∧
    ∃ f rf mp, f ∈ ["a.ts", "b.ts"] ∧ exOracleC2 f = Except.ok rf ∧ mp ∈ rf.modules ∧
      "a.ts->./b" = edgeKey f mp.1 :=
  ⟨rfl, by decide,
    claim_C2_amended exOracleC2 ["a.ts", "b.ts"]
      [("a.ts", "entry"), ("b.ts", "helper")] [("a.ts->./b", "uses the helper")]
      rfl "a.ts->./b" (by decide)⟩

/-! ## Claim C3 -/

/-- C3 (counterexample): on a self-edge the `else if` of the assembly loop
fires only the `calling` side: with the oracle reporting `a.ts` as its own
import, `map[a.ts].calling[a.ts]` holds the reason but
`map[a.ts].callers[a.ts]` is absent, refuting the symmetry claim at
`A = B = a.ts`. -/
theorem claim_C3_counterexample :
    createModuleMap exTreeC3 exOracleC3 = Except.ok exMapC3 ∧
    "a.ts" ∈ getTypescriptFiles exTreeC3 ∧
    jsGet exMapC3.modules "a.ts" = some exEntryC3 ∧
    jsGet exEntryC3.calling "a.ts" = some "imports itself" ∧
    jsGet exEntryC3.callers "a.ts" = none :=
  ⟨rfl, by decide, rfl, rfl, rfl⟩

/-- C3 (amended): for every map produced by `createModuleMap` and all
*distinct* enumerated paths `A ≠ B`, `map[A].calling[B] == reason` holds
iff `map[B].callers[A] == reason`; symmetry can fail only on self-edges
`A = B`. -/
theorem claim_C3_amended (root : List FsTree)
    (oracle : String → Except String ReturnFormat) (m : ModuleMap)
    (A B rsn : String) (eA eB : Module)
    (hok : createModuleMap root oracle = .ok m) (hAB : A ≠ B)
    (hA : jsGet m.modules A = some eA) (hB : jsGet m.modules B = some eB) :
    jsGet eA.calling B = some rsn ↔ jsGet eB.callers A = some rsn := by
  obtain ⟨d, r, hfa, hm⟩ := createModuleMap_ok_elim root oracle m hok
  subst hm
  rw [jsGet_assemble] at hA hB
  by_cases hAf : A ∈ getTypescriptFiles root
  case neg =>
    rw [if_neg hAf] at hA
    exact absurd hA (by simp)
  by_cases hBf : B ∈ getTypescriptFiles root
  case neg =>
    rw [if_neg hBf] at hB
    exact absurd hB (by simp)
  rw [if_pos hAf] at hA
  rw [if_pos hBf] at hB
  have heA : eA = mkModule d r A := by
    injection hA with h
    exact h.symm
  have heB : eB = mkModule d r B := by
    injection hB with h
    exact h.symm
  subst heA
  subst heB
  have hlen : ∀ kv ∈ r, 2 ≤ (jsSplitArrow kv.1).length := by
    intro kv hkv
    have hk : kv.1 ∈ jsKeys r := List.mem_map_of_mem Prod.fst hkv
    rcases jsKeys_analyzeFiles oracle (getTypescriptFiles root) [] [] d r hfa kv.1 hk with
      h | ⟨f, rf, mp, _, _, _, hkey⟩
    · exact absurd h (by simp [jsKeys])
    · rw [hkey]
      exact two_le_length_jsSplitArrow_edgeKey f mp.1
  have hsymm := assembleFile_symm r A B hAB hlen
  show jsGet (mkModule d r A).calling B = some rsn ↔ jsGet (mkModule d r B).callers A = some rsn
  simp only [mkModule]
  rw [hsymm]

/-- C3 (witness): the amended symmetry at the concrete two-file run with
one cross-file edge. -/
theorem claim_C3_witness :
    createModuleMap exTreeSym exOracleSym = Except.ok exMapSym ∧
    ("a.ts" : String) ≠ "b.ts" ∧
    jsGet exMapSym.modules "a.ts" = some exEntrySymA ∧
    jsGet exMapSym.modules "b.ts" = some exEntrySymB ∧
    (jsGet exEntrySymA.calling "b.ts" = some "uses the helper" ↔
      jsGet exEntrySymB.callers "a.ts" = some "uses the helper") :=
  ⟨rfl, by decide, rfl, rfl,
    claim_C3_amended exTreeSym exOracleSym exMapSym "a.ts" "b.ts" "uses the helper"
      exEntrySymA exEntrySymB rfl (by decide) rfl rfl⟩

/-! ## Claim C4 -/

/-- C4 (counterexample): with the directory listing enumerating `b.ts`
before `a.ts`, the emitted map keys are `[b.ts, a.ts]` — the enumeration
order — although lexicographically `a.ts` precedes `b.ts`; the entries are
not emitted in sorted order. -/
theorem claim_C4_counterexample :
    createModuleMap exTreeC4 exOracleC4 = Except.ok exMapC4 ∧
    jsKeys exMapC4.modules = ["b.ts", "a.ts"] ∧
    ¬ List.Pairwise (fun s t => lexLe s t = true) ["b.ts", "a.ts"] :=
  ⟨rfl, rfl, by decide⟩

/-- C4 (amended): the entries of the map produced by `createModuleMap`
are emitted in the enumeration order of the file walk (insertion order),
not sorted; the output is lexicographically sorted only when the
enumeration itself is. -/
theorem claim_C4_amended (root : List FsTree)
    (oracle : String → Except String ReturnFormat) (m : ModuleMap)
    (hnd : (getTypescriptFiles root).Nodup)
    (hok : createModuleMap root oracle = .ok m) :
    jsKeys m.modules = getTypescriptFiles root := by
  obtain ⟨d, r, _, hm⟩ := createModuleMap_ok_elim root oracle m hok
  subst hm
  exact jsKeys_assemble_of_nodup (getTypescriptFiles root) d r hnd

/-- C4 (witness): the amended claim at the concrete unsorted run. -/
theorem claim_C4_witness :
    (getTypescriptFiles exTreeC4).Nodup ∧
    createModuleMap exTreeC4 exOracleC4 = Except.ok exMapC4 ∧
    jsKeys exMapC4.modules = getTypescriptFiles exTreeC4 :=
  ⟨by decide, rfl, claim_C4_amended exTreeC4 exOracleC4 exMapC4 (by decide) rfl⟩
